import Mathlib

/-!
# Verification of the markdown → Google Docs request translator

Shallow embedding of the markdown-to-rich-document formatting translator of
`src/list.ts` (`parseInlineFormatting`, `parseLine`, `markdownToDocsRequests`).
Strings are modelled as `List Char`; the JavaScript regular expressions used by
the source are modelled by explicit scanners with the exact backtracking
semantics of the patterns involved
(`/(\*\*(.+?)\*\*|\*(.+?)\*)/g`, `/^[\-\*]\s+/`, `/^\d+\.\s+/`).
-/

namespace GdriveCli

/-- The JavaScript whitespace class used by both `String.prototype.trim` and
the regex class `\s`, restricted to its common members. -/
def isJsWs (c : Char) : Bool :=
  c = ' ' || c = '\t' || c = '\n' || c = '\r' || c = '\x0b' || c = '\x0c' ||
  c = '\u00A0' || c = '\uFEFF'

/-- The JavaScript regex metacharacter `.` (no `s` flag): any character except
a line terminator. -/
def dotM (c : Char) : Bool :=
  !(c = '\n' || c = '\r' || c = '\u2028' || c = '\u2029')

/-- Model of `text.trim()` of JavaScript: strip leading and trailing whitespace. -/
def jsTrim (cs : List Char) : List Char :=
  ((cs.dropWhile isJsWs).reverse.dropWhile isJsWs).reverse

/-- Model of `TextSegment` of src/list.ts: `{ text: string; bold?: boolean; italic?: boolean }`
(absent optional flags modelled as `false`). -/
structure TextSegment where
  text : List Char
  bold : Bool := false
  italic : Bool := false
deriving Repr, DecidableEq

/-- The `type` field of `ParsedLine` in src/list.ts. -/
inductive LineType where
  | heading1 | heading2 | heading3 | bullet | paragraph
deriving Repr, DecidableEq

/-- Model of `ParsedLine` of src/list.ts. -/
structure ParsedLine where
  type : LineType
  segments : List TextSegment
  rawText : List Char
deriving Repr, DecidableEq

/-- Matching of the sub-pattern `(.+?)\*\*` (the non-greedy body and closing
delimiter of the bold alternative): consume `.`-characters one at a time,
after at least one trying the two-star closer first (non-greedy minimality).
Returns the captured body and the characters after the match. -/
def boldAux : List Char → List Char → Option (List Char × List Char)
  | _, [] => none
  | acc, c :: rest =>
    if acc ≠ [] ∧ c = '*' ∧ rest.head? = some '*' then
      some (acc.reverse, rest.tail)
    else if dotM c then boldAux (c :: acc) rest
    else none

/-- Matching of the sub-pattern `(.+?)\*` (the non-greedy body and closing
delimiter of the italic alternative). -/
def italAux : List Char → List Char → Option (List Char × List Char)
  | _, [] => none
  | acc, c :: rest =>
    if acc ≠ [] ∧ c = '*' then some (acc.reverse, rest)
    else if dotM c then italAux (c :: acc) rest
    else none

/-- One attempt of the alternation `\*\*(.+?)\*\*|\*(.+?)\*` anchored at the
head of the input: the bold alternative is tried first (it needs a two-star
opener); if it fails entirely the italic alternative is tried at the same
position (its opening `\*` consumes only the first star, so the second star
becomes part of the italic body's candidates). Returns `(body, isBold, rest)`. -/
def tryMatchAt : List Char → Option (List Char × Bool × List Char)
  | [] => none
  | c :: rest =>
    if c = '*' then
      match (if rest.head? = some '*' then boldAux [] rest.tail else none) with
      | some (content, rest') => some (content, true, rest')
      | none =>
        match italAux [] rest with
        | some (content, rest') => some (content, false, rest')
        | none => none
    else none

/-- The `while ((match = pattern.exec(text)) !== null)` loop of
`parseInlineFormatting` in src/list.ts, defused with an explicit fuel
(strictly more fuel than remaining characters always suffices, see
`scanSegsF_fuel`).  `gap` is the text between the previous match's end
(`lastIndex`) and the current scan position; a non-empty gap is emitted as a
plain segment before each match, and the final leftover becomes a trailing
plain segment. -/
def scanSegsF : Nat → List Char → List Char → List TextSegment
  | 0, _, _ => []
  | _ + 1, gap, [] => if gap = [] then [] else [{ text := gap }]
  | fuel + 1, gap, c :: rest =>
    match tryMatchAt (c :: rest) with
    | some (content, isBold, rest') =>
      (if gap = [] then [] else [{ text := gap }]) ++
      [if isBold then { text := content, bold := true } else { text := content, italic := true }] ++
      scanSegsF fuel [] rest'
    | none => scanSegsF fuel (gap ++ [c]) rest

/-- Model of `parseInlineFormatting` of src/list.ts: split a line's text into plain,
bold and italic segments by repeatedly matching `/(\*\*(.+?)\*\*|\*(.+?)\*)/g`
left to right; if no segment was produced (empty text), the whole text is one
plain segment. -/
def parseInlineFormatting (text : List Char) : List TextSegment :=
  let segments := scanSegsF (text.length + 1) [] text
  if segments = [] then [{ text := text }] else segments

/-- The `\s+` part shared by the bullet and numbered-list prefix regexes:
succeeds when the remaining characters start with at least one whitespace
character, returning the remainder after the greedy whitespace run. -/
def wsContent (rest : List Char) : Option (List Char) :=
  if rest.head?.any isJsWs then some (rest.dropWhile isJsWs) else none

/-- The regex `/^[\-\*]\s+/` together with the prefix-stripping
`line.replace(/^[\-\*]\s+/, '')`: returns the stripped content when the line
matches, `none` otherwise. -/
def bulletMarker : List Char → Option (List Char)
  | [] => none
  | c :: rest => if c = '-' || c = '*' then wsContent rest else none

/-- The regex `/^\d+\.\s+/` together with the stripping
`line.replace(/^\d+\.\s+/, '')`. -/
def numberedMarker (cs : List Char) : Option (List Char) :=
  let ds := cs.takeWhile Char.isDigit
  if ds = [] then none
  else
    let after := cs.drop ds.length
    if after.head? = some '.' then wsContent after.tail else none

/-- Model of `parseLine` of src/list.ts. -/
def parseLine (line : List Char) : Option ParsedLine :=
  if jsTrim line = [] then none
  else if ("# ".toList).isPrefixOf line then
    some { type := .heading1, segments := parseInlineFormatting (line.drop 2),
           rawText := line.drop 2 }
  else if ("## ".toList).isPrefixOf line then
    some { type := .heading2, segments := parseInlineFormatting (line.drop 3),
           rawText := line.drop 3 }
  else if ("### ".toList).isPrefixOf line then
    some { type := .heading3, segments := parseInlineFormatting (line.drop 4),
           rawText := line.drop 4 }
  else
    match bulletMarker line with
    | some content =>
      some { type := .bullet, segments := parseInlineFormatting content, rawText := content }
    | none =>
      match numberedMarker line with
      | some content =>
        some { type := .bullet, segments := parseInlineFormatting content, rawText := content }
      | none =>
        some { type := .paragraph, segments := parseInlineFormatting line, rawText := line }

/-- Model of `markdown.split('\n')` of JavaScript: split on every newline, keeping
empty pieces (so `""` gives `[""]` and a trailing newline gives a final
empty piece). -/
def splitLines : List Char → List (List Char)
  | [] => [[]]
  | c :: rest =>
    if c = '\n' then [] :: splitLines rest
    else
      match splitLines rest with
      | l :: ls => (c :: l) :: ls
      | [] => [[c]]

/-- The synthetic empty paragraph pushed between blank-separated lines in
`markdownToDocsRequests`. -/
def emptyParagraph : ParsedLine :=
  { type := .paragraph, segments := [{ text := [] }], rawText := [] }

/-- The first loop of `markdownToDocsRequests`: parse each line, dropping
blank lines but inserting one synthetic empty paragraph before the next
parsed line when a blank line was seen and at least one line was already
parsed (`previousWasEmpty` / `parsedLines.length > 0`). -/
def addLines : List (List Char) → Bool → List ParsedLine → List ParsedLine
  | [], _, acc => acc
  | l :: ls, previousWasEmpty, acc =>
    match parseLine l with
    | some parsed =>
      if previousWasEmpty ∧ acc ≠ [] then
        addLines ls false (acc ++ [emptyParagraph, parsed])
      else
        addLines ls false (acc ++ [parsed])
    | none => addLines ls true acc

/-- The text of a line: the concatenation of its segments' texts
(`parsed.segments.map(s => s.text).join('')`). -/
def lineText (p : ParsedLine) : List Char :=
  (p.segments.map (·.text)).flatten

/-- The second loop of `markdownToDocsRequests`: build the full text and the
1-based `{ start, end }` position of every line, where
`start = fullText.length + 1` before appending and `end = fullText.length`
after appending `lineText + '\n'`. -/
def accumulate (fullText : List Char) :
    List ParsedLine → List Char × List (Nat × Nat × ParsedLine)
  | [] => (fullText, [])
  | p :: ps =>
    let start := fullText.length + 1
    let fullText' := fullText ++ lineText p ++ ['\n']
    let (finalText, rest) := accumulate fullText' ps
    (finalText, (start, fullText'.length, p) :: rest)

/-- The Google Docs `batchUpdate` request shapes emitted by src/list.ts.
`updateTextStyle` with `textStyle: { bold: true }, fields: 'bold'` and with
`textStyle: { italic: true }, fields: 'italic'` are the two text-style shapes
the source constructs, modelled as two constructors. -/
inductive DocsRequest where
  | insertText (index : Nat) (text : List Char)
  | updateParagraphStyle (startIndex endIndex : Nat) (namedStyleType : String)
  | createParagraphBullets (startIndex endIndex : Nat) (bulletPreset : String)
  | updateTextStyleBold (startIndex endIndex : Nat)
  | updateTextStyleItalic (startIndex endIndex : Nat)
deriving Repr, DecidableEq

/-- The inner segment loop of the formatting pass: walk the segments with a
cursor starting at the line's start, emitting a bold and/or italic
`updateTextStyle` for each non-empty flagged segment over
`[cursor, cursor + segment.text.length)`. -/
def segRequests : Nat → List TextSegment → List DocsRequest
  | _, [] => []
  | cursor, s :: rest =>
    (if s.bold = true ∧ s.text.length > 0 then
      [.updateTextStyleBold cursor (cursor + s.text.length)] else []) ++
    (if s.italic = true ∧ s.text.length > 0 then
      [.updateTextStyleItalic cursor (cursor + s.text.length)] else []) ++
    segRequests (cursor + s.text.length) rest

/-- The per-line body of the formatting loop of `markdownToDocsRequests`:
one paragraph-level request for headings and bullets over `[start, end)`,
then the segment-level text-style requests. -/
def lineRequests : Nat × Nat × ParsedLine → List DocsRequest
  | (start, stop, line) =>
    (match line.type with
     | .heading1 => [.updateParagraphStyle start stop "HEADING_1"]
     | .heading2 => [.updateParagraphStyle start stop "HEADING_2"]
     | .heading3 => [.updateParagraphStyle start stop "HEADING_3"]
     | .bullet => [.createParagraphBullets start stop "BULLET_DISC_CIRCLE_SQUARE"]
     | .paragraph => []) ++
    segRequests start line.segments

/-- Model of `markdownToDocsRequests` of src/list.ts on character lists. -/
def markdownToDocsRequestsL (markdown : List Char) : List DocsRequest :=
  let lines := splitLines markdown
  let parsedLines := addLines lines false []
  let (fullText, linePositions) := accumulate [] parsedLines
  (if fullText ≠ [] then [.insertText 1 fullText] else []) ++
  (linePositions.map lineRequests).flatten

/-- Model of `markdownToDocsRequests` of src/list.ts (string entry point). -/
def markdownToDocsRequests (markdown : String) : List DocsRequest :=
  markdownToDocsRequestsL markdown.toList

/-- The parsed-line list `markdownToDocsRequests` builds internally from its
input (the result of its first loop). -/
def parsedLinesOf (markdown : String) : List ParsedLine :=
  addLines (splitLines markdown.toList) false []

/-- The source text a segment was parsed from: bold and italic segments had
their surrounding markers consumed by the match. -/
def segSource (s : TextSegment) : List Char :=
  if s.bold then '*' :: '*' :: (s.text ++ ['*', '*'])
  else if s.italic then '*' :: (s.text ++ ['*'])
  else s.text

/-- The full concatenated body `markdownToDocsRequests` builds for an input. -/
def fullTextOf (markdown : List Char) : List Char :=
  (accumulate [] (addLines (splitLines markdown) false [])).1

/-- The per-line `{ start, end }` table `markdownToDocsRequests` builds for an
input. -/
def linePositionsOf (markdown : List Char) : List (Nat × Nat × ParsedLine) :=
  (accumulate [] (addLines (splitLines markdown) false [])).2

/-- The classification of a non-blank line according to the spec's
priority-ordered prefix rules (§4.1); compared against the source's
`parseLine` in `parseLine_nonblank`. -/
def lineTypeOf (l : List Char) : LineType :=
  if ("# ".toList).isPrefixOf l then .heading1
  else if ("## ".toList).isPrefixOf l then .heading2
  else if ("### ".toList).isPrefixOf l then .heading3
  else if (bulletMarker l).isSome then .bullet
  else if (numberedMarker l).isSome then .bullet
  else .paragraph

/-- The content extraction of the spec's line rules (§4.1): the remainder
after the heading marker, the remainder after the bullet/numbered marker, or
the line verbatim; compared against the source's `parseLine` in
`parseLine_nonblank`. -/
def stripLine (l : List Char) : List Char :=
  if ("# ".toList).isPrefixOf l then l.drop 2
  else if ("## ".toList).isPrefixOf l then l.drop 3
  else if ("### ".toList).isPrefixOf l then l.drop 4
  else
    match bulletMarker l with
    | some content => content
    | none =>
      match numberedMarker l with
      | some content => content
      | none => l

/-- The body the translator should insert according to the amended form of the
spec's plain-input property: each line with its heading/bullet marker stripped
and a newline appended. -/
def strippedBody (md : List Char) : List Char :=
  ((splitLines md).map (fun l => stripLine l ++ ['\n'])).flatten

theorem boldAux_length {acc cs content rest'} (h : boldAux acc cs = some (content, rest')) :
    rest'.length < cs.length := by
  induction cs generalizing acc with
  | nil => simp [boldAux] at h
  | cons c rest ih =>
    rw [boldAux] at h
    by_cases hcl : acc ≠ [] ∧ c = '*' ∧ rest.head? = some '*'
    · rw [if_pos hcl] at h
      obtain ⟨-, -, h3⟩ := hcl
      cases rest with
      | nil => simp at h3
      | cons d rest₂ =>
        simp only [Option.some.injEq, Prod.mk.injEq] at h
        simp [← h.2]
        omega
    · rw [if_neg hcl] at h
      by_cases hd : dotM c
      · rw [if_pos hd] at h
        have := ih h
        simp
        omega
      · rw [if_neg hd] at h
        exact absurd h (by simp)

theorem italAux_length {acc cs content rest'} (h : italAux acc cs = some (content, rest')) :
    rest'.length < cs.length := by
  induction cs generalizing acc with
  | nil => simp [italAux] at h
  | cons c rest ih =>
    rw [italAux] at h
    by_cases hcl : acc ≠ [] ∧ c = '*'
    · rw [if_pos hcl] at h
      simp only [Option.some.injEq, Prod.mk.injEq] at h
      simp [← h.2]
    · rw [if_neg hcl] at h
      by_cases hd : dotM c
      · rw [if_pos hd] at h
        have := ih h
        simp
        omega
      · rw [if_neg hd] at h
        exact absurd h (by simp)

theorem tryMatchAt_length {cs content isBold rest'}
    (h : tryMatchAt cs = some (content, isBold, rest')) : rest'.length < cs.length := by
  cases cs with
  | nil => simp [tryMatchAt] at h
  | cons c rest =>
    rw [tryMatchAt] at h
    by_cases hc : c = '*'
    · rw [if_pos hc] at h
      cases hb : (if rest.head? = some '*' then boldAux [] rest.tail else none) with
      | some p =>
        rw [hb] at h
        obtain ⟨c₁, r₁⟩ := p
        simp only [Option.some.injEq, Prod.mk.injEq] at h
        by_cases h2 : rest.head? = some '*'
        · rw [if_pos h2] at hb
          have hlt := boldAux_length hb
          have htl : rest.tail.length ≤ rest.length := by
            cases rest <;> simp
          simp only [← h.2.2, List.length_cons]
          omega
        · rw [if_neg h2] at hb
          exact absurd hb (by simp)
      | none =>
        rw [hb] at h
        cases hi : italAux [] rest with
        | some p =>
          rw [hi] at h
          obtain ⟨c₁, r₁⟩ := p
          simp only [Option.some.injEq, Prod.mk.injEq] at h
          have hlt := italAux_length hi
          simp only [← h.2.2, List.length_cons]
          omega
        | none => rw [hi] at h; exact absurd h (by simp)
    · rw [if_neg hc] at h
      exact absurd h (by simp)

example :
    parseInlineFormatting "Hello **world**".toList =
      [{ text := "Hello ".toList }, { text := "world".toList, bold := true }] := by decide

example :
    parseInlineFormatting "**a***b*".toList =
      [{ text := "a".toList, bold := true }, { text := "b".toList, italic := true }] := by
  decide

example : markdownToDocsRequests "" = [] := by decide

theorem tryMatchAt_not_star {c : Char} (rest : List Char) (hc : c ≠ '*') :
    tryMatchAt (c :: rest) = none := by
  rw [tryMatchAt, if_neg hc]

theorem scanSegsF_fuel :
    ∀ f₁ f₂ gap cs, cs.length < f₁ → cs.length < f₂ →
      scanSegsF f₁ gap cs = scanSegsF f₂ gap cs := by
  intro f₁
  induction f₁ with
  | zero => intro f₂ gap cs h₁ _; omega
  | succ f ih =>
    intro f₂ gap cs h₁ h₂
    cases f₂ with
    | zero => omega
    | succ g =>
      cases cs with
      | nil => rw [scanSegsF, scanSegsF]
      | cons c rest =>
        rw [scanSegsF, scanSegsF]
        cases hm : tryMatchAt (c :: rest) with
        | some p =>
          obtain ⟨content, isBold, rest'⟩ := p
          have hlt := tryMatchAt_length hm
          simp only [List.length_cons] at h₁ h₂ hlt
          dsimp only
          rw [ih g [] rest' (by omega) (by omega)]
        | none =>
          simp only [List.length_cons] at h₁ h₂
          dsimp only
          rw [ih g (gap ++ [c]) rest (by omega) (by omega)]

theorem scanSegsF_no_star :
    ∀ fuel gap cs, cs.length < fuel → (∀ c ∈ cs, c ≠ '*') →
      scanSegsF fuel gap cs = if gap ++ cs = [] then [] else [{ text := gap ++ cs }] := by
  intro fuel
  induction fuel with
  | zero => intro gap cs h₁ _; omega
  | succ f ih =>
    intro gap cs h₁ h₂
    cases cs with
    | nil => rw [scanSegsF]; simp
    | cons c rest =>
      rw [scanSegsF, tryMatchAt_not_star rest (h₂ c (by simp))]
      have := ih (gap ++ [c]) rest (by simp at h₁ ⊢; omega)
        (fun d hd => h₂ d (by simp [hd]))
      rw [this]
      simp

/-- If the inline pattern matches nothing in `text` (in particular whenever
`text` has no `*` at all), the whole text comes back as a single plain
segment. -/
theorem parseInlineFormatting_no_star {text : List Char} (h : ∀ c ∈ text, c ≠ '*') :
    parseInlineFormatting text = [{ text := text }] := by
  rw [parseInlineFormatting]
  rw [scanSegsF_no_star (text.length + 1) [] text (by omega) h]
  cases text with
  | nil => simp
  | cons c rest => simp

theorem boldAux_sound {acc cs content rest'} (h : boldAux acc cs = some (content, rest')) :
    acc.reverse ++ cs = content ++ '*' :: '*' :: rest' := by
  induction cs generalizing acc with
  | nil => simp [boldAux] at h
  | cons c rest ih =>
    rw [boldAux] at h
    by_cases hcl : acc ≠ [] ∧ c = '*' ∧ rest.head? = some '*'
    · rw [if_pos hcl] at h
      simp only [Option.some.injEq, Prod.mk.injEq] at h
      obtain ⟨-, hc, h3⟩ := hcl
      cases rest with
      | nil => simp at h3
      | cons d rest₂ =>
        simp only [List.head?_cons, Option.some.injEq] at h3
        simp only [List.tail_cons] at h
        subst hc h3
        rw [← h.1, ← h.2]
    · rw [if_neg hcl] at h
      by_cases hd : dotM c
      · rw [if_pos hd] at h
        have := ih h
        simpa using this
      · rw [if_neg hd] at h
        exact absurd h (by simp)

theorem italAux_sound {acc cs content rest'} (h : italAux acc cs = some (content, rest')) :
    acc.reverse ++ cs = content ++ '*' :: rest' := by
  induction cs generalizing acc with
  | nil => simp [italAux] at h
  | cons c rest ih =>
    rw [italAux] at h
    by_cases hcl : acc ≠ [] ∧ c = '*'
    · rw [if_pos hcl] at h
      simp only [Option.some.injEq, Prod.mk.injEq] at h
      obtain ⟨-, hc⟩ := hcl
      subst hc
      rw [← h.1, ← h.2]
    · rw [if_neg hcl] at h
      by_cases hd : dotM c
      · rw [if_pos hd] at h
        have := ih h
        simpa using this
      · rw [if_neg hd] at h
        exact absurd h (by simp)

theorem tryMatchAt_sound {cs content isBold rest'}
    (h : tryMatchAt cs = some (content, isBold, rest')) :
    cs = (if isBold then '*' :: '*' :: (content ++ ['*', '*'])
          else '*' :: (content ++ ['*'])) ++ rest' := by
  cases cs with
  | nil => simp [tryMatchAt] at h
  | cons c rest =>
    rw [tryMatchAt] at h
    by_cases hc : c = '*'
    · rw [if_pos hc] at h
      subst hc
      cases hb : (if rest.head? = some '*' then boldAux [] rest.tail else none) with
      | some p =>
        rw [hb] at h
        obtain ⟨c₁, r₁⟩ := p
        simp only [Option.some.injEq, Prod.mk.injEq] at h
        obtain ⟨hcon, hbold, hrest⟩ := h
        subst hcon; subst hrest
        by_cases h2 : rest.head? = some '*'
        · rw [if_pos h2] at hb
          have hs := boldAux_sound hb
          simp only [List.reverse_nil, List.nil_append] at hs
          cases rest with
          | nil => simp at h2
          | cons d rest₂ =>
            simp only [List.head?_cons, Option.some.injEq] at h2
            subst h2
            simp only [List.tail_cons] at hs
            rw [← hbold]
            simp [hs]
        · rw [if_neg h2] at hb
          exact absurd hb (by simp)
      | none =>
        rw [hb] at h
        cases hi : italAux [] rest with
        | some p =>
          rw [hi] at h
          obtain ⟨c₁, r₁⟩ := p
          simp only [Option.some.injEq, Prod.mk.injEq] at h
          obtain ⟨hcon, hbold, hrest⟩ := h
          subst hcon; subst hrest
          have hs := italAux_sound hi
          simp only [List.reverse_nil, List.nil_append] at hs
          rw [← hbold]
          simp [hs]
        | none => rw [hi] at h; exact absurd h (by simp)
    · rw [if_neg hc] at h
      exact absurd h (by simp)

theorem scanSegsF_coverage :
    ∀ fuel gap cs, cs.length < fuel →
      ((scanSegsF fuel gap cs).map segSource).flatten = gap ++ cs := by
  intro fuel
  induction fuel with
  | zero => intro gap cs h; omega
  | succ f ih =>
    intro gap cs h
    cases cs with
    | nil =>
      rw [scanSegsF]
      by_cases hg : gap = []
      · simp [hg]
      · simp [hg, segSource]
    | cons c rest =>
      rw [scanSegsF]
      cases hm : tryMatchAt (c :: rest) with
      | some p =>
        obtain ⟨content, isBold, rest'⟩ := p
        have hlt := tryMatchAt_length hm
        simp only [List.length_cons] at h hlt
        have hrec := ih [] rest' (by omega)
        have hsrc := tryMatchAt_sound hm
        by_cases hg : gap = [] <;> cases isBold <;>
          simp [hg, segSource, hrec, hsrc]
      | none =>
        have := ih (gap ++ [c]) rest (by simp at h ⊢; omega)
        rw [this]
        simp

/-- Inline-span coverage: restoring the consumed emphasis markers around each
segment's text and concatenating reconstructs the scanned text exactly
(no gaps, no overlaps). -/
theorem parseInlineFormatting_coverage (text : List Char) :
    (((parseInlineFormatting text).map segSource)).flatten = text := by
  rw [parseInlineFormatting]
  cases hs : scanSegsF (text.length + 1) [] text with
  | nil =>
    have := scanSegsF_coverage (text.length + 1) [] text (by omega)
    rw [hs] at this
    simp only [List.map_nil, List.flatten_nil, List.nil_append] at this
    simp [← this, segSource]
  | cons s rest =>
    have := scanSegsF_coverage (text.length + 1) [] text (by omega)
    rw [hs] at this
    simpa using this

theorem accumulate_fst :
    ∀ ps ft, (accumulate ft ps).1 = ft ++ (ps.map (fun p => lineText p ++ ['\n'])).flatten := by
  intro ps
  induction ps with
  | nil => intro ft; simp [accumulate]
  | cons p ps ih =>
    intro ft
    simp only [accumulate]
    rw [ih (ft ++ lineText p ++ ['\n'])]
    simp

theorem accumulate_mem :
    ∀ ps ft s e p, (s, e, p) ∈ (accumulate ft ps).2 →
      p ∈ ps ∧ e = s + (lineText p).length ∧ ft.length + 1 ≤ s ∧
        e ≤ (accumulate ft ps).1.length := by
  intro ps
  induction ps with
  | nil => intro ft s e p h; simp [accumulate] at h
  | cons q ps ih =>
    intro ft s e p h
    simp only [accumulate, List.mem_cons] at h
    rcases h with h | h
    · obtain ⟨hs, he, hp⟩ : s = ft.length + 1 ∧
          e = (ft ++ lineText q ++ ['\n']).length ∧ p = q := by
        simpa [Prod.ext_iff] using h
      subst hs he hp
      have h1 : (accumulate (ft ++ lineText p ++ ['\n']) ps).1.length ≥
          (ft ++ lineText p ++ ['\n']).length := by
        rw [accumulate_fst]
        simp
      refine ⟨by simp, ?_, ?_, ?_⟩
      · simp
        omega
      · omega
      · rw [accumulate]
        dsimp only
        exact h1
    · have := ih (ft ++ lineText q ++ ['\n']) s e p h
      refine ⟨by simp [this.1], this.2.1, ?_, ?_⟩
      · have := this.2.2.1
        simp at this
        omega
      · rw [accumulate]
        dsimp only
        exact this.2.2.2

theorem segRequests_mem :
    ∀ segs cursor r, r ∈ segRequests cursor segs →
      ∃ s' e', cursor ≤ s' ∧ s' < e' ∧
        e' ≤ cursor + ((segs.map (·.text)).flatten).length ∧
        (r = .updateTextStyleBold s' e' ∨ r = .updateTextStyleItalic s' e') := by
  intro segs
  induction segs with
  | nil => intro cursor r h; simp [segRequests] at h
  | cons s rest ih =>
    intro cursor r h
    have hlen : (((s :: rest).map (·.text)).flatten).length
        = s.text.length + ((rest.map (·.text)).flatten).length := by
      simp
    rw [segRequests] at h
    simp only [List.mem_append] at h
    rcases h with (h | h) | h
    · by_cases hb : s.bold = true ∧ s.text.length > 0
      · rw [if_pos hb] at h
        simp only [List.mem_singleton] at h
        exact ⟨cursor, cursor + s.text.length, le_refl _, by omega,
          by rw [hlen]; omega, Or.inl h⟩
      · rw [if_neg hb] at h
        simp at h
    · by_cases hb : s.italic = true ∧ s.text.length > 0
      · rw [if_pos hb] at h
        simp only [List.mem_singleton] at h
        exact ⟨cursor, cursor + s.text.length, le_refl _, by omega,
          by rw [hlen]; omega, Or.inr h⟩
      · rw [if_neg hb] at h
        simp at h
    · obtain ⟨s', e', h1, h2, h3, h4⟩ := ih (cursor + s.text.length) r h
      exact ⟨s', e', by omega, h2, by rw [hlen]; omega, h4⟩

theorem lineRequests_mem :
    ∀ s e p r, r ∈ lineRequests (s, e, p) →
      ((∃ t, r = .updateParagraphStyle s e t) ∨ (∃ b, r = .createParagraphBullets s e b)) ∨
      (∃ s' e', s ≤ s' ∧ s' < e' ∧ e' ≤ s + (lineText p).length ∧
        (r = .updateTextStyleBold s' e' ∨ r = .updateTextStyleItalic s' e')) := by
  intro s e p r h
  rw [lineRequests] at h
  simp only [List.mem_append] at h
  rcases h with h | h
  · left
    cases hty : p.type <;> rw [hty] at h <;> simp only [List.mem_singleton] at h <;>
      first
        | exact Or.inl ⟨_, h⟩
        | exact Or.inr ⟨_, h⟩
        | exact absurd h (by simp)
  · right
    obtain ⟨s', e', h1, h2, h3, h4⟩ := segRequests_mem p.segments s r h
    exact ⟨s', e', h1, h2, by rw [lineText]; omega, h4⟩

theorem markdownToDocsRequestsL_eq (md : List Char) :
    markdownToDocsRequestsL md =
      (if fullTextOf md ≠ [] then [.insertText 1 (fullTextOf md)] else []) ++
      ((linePositionsOf md).map lineRequests).flatten := rfl

theorem jsTrim_eq_nil {l : List Char} (h : jsTrim l = []) : ∀ c ∈ l, isJsWs c = true := by
  intro c hc
  unfold jsTrim at h
  rw [List.reverse_eq_nil_iff, List.dropWhile_eq_nil_iff] at h
  rcases (List.takeWhile_append_dropWhile (p := isJsWs) (l := l)) ▸ hc |> List.mem_append.mp with
    hm | hm
  · exact List.mem_takeWhile_imp hm
  · exact h c (by simpa using hm)

theorem jsTrim_ne_nil {l : List Char} {c : Char} (hc : c ∈ l) (hw : isJsWs c = false) :
    jsTrim l ≠ [] := by
  intro h
  have := jsTrim_eq_nil h c hc
  simp [this] at hw

theorem splitLines_ne_nil (cs : List Char) : splitLines cs ≠ [] := by
  cases cs with
  | nil => simp [splitLines]
  | cons c rest =>
    rw [splitLines]
    by_cases hc : c = '\n'
    · simp [hc]
    · rw [if_neg hc]
      cases splitLines rest <;> simp

theorem splitLines_subset :
    ∀ cs l, l ∈ splitLines cs → ∀ c ∈ l, c ∈ cs := by
  intro cs
  induction cs with
  | nil => intro l hl c hc; simp [splitLines] at hl; simp [hl] at hc
  | cons d rest ih =>
    intro l hl c hc
    rw [splitLines] at hl
    by_cases hd : d = '\n'
    · rw [if_pos hd] at hl
      rcases List.mem_cons.mp hl with h | h
      · simp [h] at hc
      · exact List.mem_cons_of_mem _ (ih l h c hc)
    · rw [if_neg hd] at hl
      cases hs : splitLines rest with
      | nil => exact absurd hs (splitLines_ne_nil rest)
      | cons l₀ ls =>
        rw [hs] at hl
        rcases List.mem_cons.mp hl with h | h
        · subst h
          rcases List.mem_cons.mp hc with h | h
          · simp [h]
          · exact List.mem_cons_of_mem _ (ih l₀ (hs ▸ List.mem_cons_self l₀ ls) c h)
        · exact List.mem_cons_of_mem _ (ih l (hs ▸ List.mem_cons_of_mem l₀ h) c hc)

theorem addLines_noblank :
    ∀ ls acc, (∀ l ∈ ls, (parseLine l).isSome) →
      addLines ls false acc = acc ++ ls.filterMap parseLine := by
  intro ls
  induction ls with
  | nil => intro acc _; simp [addLines]
  | cons l ls ih =>
    intro acc h
    rw [addLines]
    cases hp : parseLine l with
    | none =>
      have := h l (List.mem_cons_self l ls)
      rw [hp] at this
      simp at this
    | some parsed =>
      dsimp only
      have hcond : ¬((false : Bool) = true ∧ acc ≠ []) := by simp
      rw [if_neg hcond, ih (acc ++ [parsed]) (fun x hx => h x (List.mem_cons_of_mem l hx))]
      simp [List.filterMap_cons, hp]

/-- On non-blank lines, `parseLine` returns exactly the classification and
stripped content of the spec's rules, with spans computed from the stripped
content. -/
theorem parseLine_nonblank {l : List Char} (h : jsTrim l ≠ []) :
    parseLine l = some { type := lineTypeOf l,
                         segments := parseInlineFormatting (stripLine l),
                         rawText := stripLine l } := by
  rw [parseLine, if_neg h, lineTypeOf, stripLine]
  split_ifs with h1 h2 h3 h4 h5
  · rfl
  · rfl
  · rfl
  · obtain ⟨content, hb⟩ := Option.isSome_iff_exists.mp h4
    simp [hb]
  · have hbn : bulletMarker l = none := Option.not_isSome_iff_eq_none.mp (by simpa using h4)
    obtain ⟨content, hn⟩ := Option.isSome_iff_exists.mp h5
    simp [hbn, hn]
  · have hbn : bulletMarker l = none := Option.not_isSome_iff_eq_none.mp (by simpa using h4)
    have hnn : numberedMarker l = none := Option.not_isSome_iff_eq_none.mp (by simpa using h5)
    simp [hbn, hnn]

theorem wsContent_sound {rest content : List Char} (h : wsContent rest = some content) :
    content = rest.dropWhile isJsWs := by
  rw [wsContent] at h
  by_cases hd : rest.head?.any isJsWs = true
  · rw [if_pos hd] at h
    simp only [Option.some.injEq] at h
    exact h.symm
  · rw [if_neg hd] at h
    simp at h

theorem bulletMarker_head {l content : List Char} (h : bulletMarker l = some content) :
    ∃ c rest, l = c :: rest ∧ (c = '-' ∨ c = '*') ∧ content = rest.dropWhile isJsWs := by
  cases l with
  | nil => simp [bulletMarker] at h
  | cons c rest =>
    rw [bulletMarker] at h
    by_cases hc : (c = '-' || c = '*') = true
    · rw [if_pos hc] at h
      exact ⟨c, rest, rfl, by simpa using hc, wsContent_sound h⟩
    · rw [if_neg hc] at h
      simp at h

theorem numberedMarker_head {l content : List Char} (h : numberedMarker l = some content) :
    ∃ c rest, l = c :: rest ∧ c.isDigit = true ∧ ∀ x ∈ content, x ∈ rest := by
  rw [numberedMarker] at h
  by_cases hds : l.takeWhile Char.isDigit = []
  · rw [if_pos hds] at h
    simp at h
  · rw [if_neg hds] at h
    obtain ⟨c, rest, rfl⟩ : ∃ c rest, l = c :: rest := by
      cases l with
      | nil => simp at hds
      | cons c rest => exact ⟨c, rest, rfl⟩
    have hcd : c.isDigit = true := by
      by_cases hcd : c.isDigit = true
      · exact hcd
      · rw [List.takeWhile_cons, if_neg (by simp [hcd])] at hds
        simp at hds
    refine ⟨c, rest, rfl, hcd, ?_⟩
    by_cases hdot :
        ((c :: rest).drop ((c :: rest).takeWhile Char.isDigit).length).head? = some '.'
    · rw [if_pos hdot] at h
      have hcont := wsContent_sound h
      intro x hx
      rw [hcont] at hx
      have hx₂ := (List.dropWhile_sublist isJsWs).subset hx
      have hx₃ := (List.tail_sublist _).subset hx₂
      have hlen : 1 ≤ ((c :: rest).takeWhile Char.isDigit).length := by
        rw [List.takeWhile_cons, if_pos (by simpa using hcd)]
        simp
      have hdr : (c :: rest).drop ((c :: rest).takeWhile Char.isDigit).length
          = rest.drop (((c :: rest).takeWhile Char.isDigit).length - 1) := by
        cases hn : ((c :: rest).takeWhile Char.isDigit).length with
        | zero => omega
        | succ n => simp
      rw [hdr] at hx₃
      exact (List.drop_subset _ _) hx₃
    · rw [if_neg hdot] at h
      simp at h

theorem stripLine_subset (l : List Char) : ∀ x ∈ stripLine l, x ∈ l := by
  intro x hx
  rw [stripLine] at hx
  split_ifs at hx with h1 h2 h3
  · exact (List.drop_subset _ _) hx
  · exact (List.drop_subset _ _) hx
  · exact (List.drop_subset _ _) hx
  · cases hb : bulletMarker l with
    | some content =>
      rw [hb] at hx
      obtain ⟨c, rest, rfl, -, hc⟩ := bulletMarker_head hb
      rw [hc] at hx
      exact List.mem_cons_of_mem _ ((List.dropWhile_sublist isJsWs).subset hx)
    | none =>
      rw [hb] at hx
      cases hn : numberedMarker l with
      | some content =>
        rw [hn] at hx
        obtain ⟨c, rest, rfl, -, hc⟩ := numberedMarker_head hn
        exact List.mem_cons_of_mem _ (hc x hx)
      | none =>
        rw [hn] at hx
        exact hx

theorem filterMap_parseLine_eq_map {ls : List (List Char)}
    (h : ∀ l ∈ ls, jsTrim l ≠ []) :
    ls.filterMap parseLine = ls.map (fun l =>
      { type := lineTypeOf l, segments := parseInlineFormatting (stripLine l),
        rawText := stripLine l : ParsedLine }) := by
  induction ls with
  | nil => simp
  | cons l ls ih =>
    rw [List.filterMap_cons, parseLine_nonblank (h l (List.mem_cons_self l ls))]
    rw [List.map_cons, ih (fun x hx => h x (List.mem_cons_of_mem l hx))]

theorem parsedLines_plain {md : List Char}
    (hblank : ∀ l ∈ splitLines md, jsTrim l ≠ [])
    (hstar : '*' ∉ md) :
    addLines (splitLines md) false [] = (splitLines md).map (fun l =>
      { type := lineTypeOf l, segments := [{ text := stripLine l }],
        rawText := stripLine l : ParsedLine }) := by
  rw [addLines_noblank (splitLines md) []
    (fun l hl => by rw [parseLine_nonblank (hblank l hl)]; rfl)]
  rw [filterMap_parseLine_eq_map hblank, List.nil_append]
  apply List.map_congr_left
  intro l hl
  have hns : ∀ c ∈ stripLine l, c ≠ '*' := by
    intro c hc he
    subst he
    exact hstar (splitLines_subset md l hl '*' (stripLine_subset l '*' hc))
  rw [parseInlineFormatting_no_star hns]

theorem segRequests_plain (cursor : Nat) (t : List Char) :
    segRequests cursor [{ text := t }] = [] := by
  rw [segRequests]
  simp [segRequests]

theorem fullTextOf_plain {md : List Char}
    (hblank : ∀ l ∈ splitLines md, jsTrim l ≠ [])
    (hstar : '*' ∉ md) :
    fullTextOf md = strippedBody md := by
  rw [fullTextOf, parsedLines_plain hblank hstar, accumulate_fst, strippedBody]
  rw [List.map_map, List.nil_append]
  congr 1
  apply List.map_congr_left
  intro l hl
  simp [lineText]

theorem strippedBody_ne_nil (md : List Char) : strippedBody md ≠ [] := by
  rw [strippedBody]
  cases hs : splitLines md with
  | nil => exact absurd hs (splitLines_ne_nil md)
  | cons l ls =>
    rw [List.map_cons, List.flatten_cons]
    simp

/-- Amended plain-input property (claim C3): with no blank lines and no `*`
anywhere, the output is exactly one insertText carrying each line's content
with its heading/bullet marker stripped and a newline appended, followed by
format operations that are all paragraph-level (heading styles or bullets),
never text styles. -/
theorem claim_c3_amended (md : List Char)
    (hblank : ∀ l ∈ splitLines md, jsTrim l ≠ [])
    (hstar : '*' ∉ md) :
    markdownToDocsRequestsL md =
      DocsRequest.insertText 1 (strippedBody md) ::
        ((linePositionsOf md).map lineRequests).flatten ∧
    ∀ r ∈ ((linePositionsOf md).map lineRequests).flatten,
      (∃ s e t, r = DocsRequest.updateParagraphStyle s e t) ∨
      (∃ s e b, r = DocsRequest.createParagraphBullets s e b) := by
  constructor
  · rw [markdownToDocsRequestsL_eq md, fullTextOf_plain hblank hstar,
      if_pos (strippedBody_ne_nil md)]
    rfl
  · intro r hr
    obtain ⟨reqs, hreqs, hrin⟩ := List.mem_flatten.mp hr
    obtain ⟨⟨s, e, p⟩, hpos, rfl⟩ := List.mem_map.mp hreqs
    have hmem := accumulate_mem _ [] s e p hpos
    have hp := hmem.1
    rw [parsedLines_plain hblank hstar] at hp
    obtain ⟨l, hl, hpl⟩ := List.mem_map.mp hp
    rw [lineRequests] at hrin
    rcases List.mem_append.mp hrin with hin | hin
    · rcases hty : p.type with h | h | h | h | h <;> rw [hty] at hin <;>
        simp only [List.mem_singleton, List.not_mem_nil] at hin
      · exact Or.inl ⟨s, e, "HEADING_1", hin⟩
      · exact Or.inl ⟨s, e, "HEADING_2", hin⟩
      · exact Or.inl ⟨s, e, "HEADING_3", hin⟩
      · exact Or.inr ⟨s, e, "BULLET_DISC_CIRCLE_SQUARE", hin⟩
    · have hsegs : p.segments = [{ text := stripLine l }] := by
        rw [← hpl]
      rw [hsegs, segRequests_plain] at hin
      exact absurd hin (List.not_mem_nil r)

theorem parsedLines_nil_of_fullTextOf_nil {md : List Char} (h : fullTextOf md = []) :
    addLines (splitLines md) false [] = [] := by
  by_contra hne
  cases hps : addLines (splitLines md) false [] with
  | nil => exact hne hps
  | cons p ps =>
    rw [fullTextOf, hps, accumulate_fst] at h
    simp at h

theorem lineRequests_no_insert {pos : Nat × Nat × ParsedLine} {r : DocsRequest}
    (h : r ∈ lineRequests pos) : ∀ i t, r ≠ DocsRequest.insertText i t := by
  obtain ⟨s, e, p⟩ := pos
  intro i t he
  rcases lineRequests_mem s e p r h with (⟨u, hu⟩ | ⟨u, hu⟩) | ⟨s', e', -, -, -, hu | hu⟩ <;>
    rw [he] at hu <;> exact absurd hu (by simp)

/-- Claim C8: the output is either empty, or a single insertText at index 1
carrying the whole pre-computed body, followed only by formatting requests
(no further insertions); all formatting ranges are those computed by the
pre-insertion pass over `linePositionsOf`. -/
theorem claim_c8_ordering (md : List Char) :
    markdownToDocsRequestsL md = [] ∨
    (∃ fmts, markdownToDocsRequestsL md = DocsRequest.insertText 1 (fullTextOf md) :: fmts ∧
      fmts = ((linePositionsOf md).map lineRequests).flatten ∧
      ∀ r ∈ fmts, ∀ i t, r ≠ DocsRequest.insertText i t) := by
  by_cases hft : fullTextOf md = []
  · left
    rw [markdownToDocsRequestsL_eq md, if_neg (by simp [hft]), linePositionsOf,
      parsedLines_nil_of_fullTextOf_nil hft]
    rfl
  · right
    refine ⟨((linePositionsOf md).map lineRequests).flatten, ?_, rfl, ?_⟩
    · rw [markdownToDocsRequestsL_eq md, if_pos hft]
      rfl
    · intro r hr
      obtain ⟨reqs, hreqs, hrin⟩ := List.mem_flatten.mp hr
      obtain ⟨pos, -, rfl⟩ := List.mem_map.mp hreqs
      exact lineRequests_no_insert hrin

/-- Claim C2: for every line-position record, `end = start + length(lineText)`
(the running total after appending the line's text and its newline), every
paragraph-level request emitted for the line covers exactly `[start, end)`,
every text-style request stays within `start + length(lineText)`, and
heading/bullet lines do emit a paragraph-level request over `[start, end)`. -/
theorem claim_c2_ranges (md : List Char) (s e : Nat) (p : ParsedLine)
    (h : (s, e, p) ∈ linePositionsOf md) :
    e = s + (lineText p).length ∧
    (∀ s' e' t, DocsRequest.updateParagraphStyle s' e' t ∈ lineRequests (s, e, p) →
      s' = s ∧ e' = e) ∧
    (∀ s' e' b, DocsRequest.createParagraphBullets s' e' b ∈ lineRequests (s, e, p) →
      s' = s ∧ e' = e) ∧
    (∀ s' e', DocsRequest.updateTextStyleBold s' e' ∈ lineRequests (s, e, p) →
      s ≤ s' ∧ s' < e' ∧ e' ≤ s + (lineText p).length) ∧
    (∀ s' e', DocsRequest.updateTextStyleItalic s' e' ∈ lineRequests (s, e, p) →
      s ≤ s' ∧ s' < e' ∧ e' ≤ s + (lineText p).length) ∧
    (p.type ≠ .paragraph →
      ∃ r ∈ lineRequests (s, e, p),
        (∃ t, r = DocsRequest.updateParagraphStyle s e t) ∨
        (∃ b, r = DocsRequest.createParagraphBullets s e b)) := by
  have hmem := accumulate_mem _ [] s e p h
  refine ⟨hmem.2.1, ?_, ?_, ?_, ?_, ?_⟩
  · intro s' e' t hin
    rcases lineRequests_mem s e p _ hin with (⟨u, hu⟩ | ⟨u, hu⟩) | ⟨a, b, h1, h2, h3, hu | hu⟩
    · injection hu with ha hb hc
      exact ⟨ha, hb⟩
    · simp at hu
    · simp at hu
    · simp at hu
  · intro s' e' b hin
    rcases lineRequests_mem s e p _ hin with (⟨u, hu⟩ | ⟨u, hu⟩) | ⟨a, b₂, h1, h2, h3, hu | hu⟩
    · simp at hu
    · injection hu with ha hb hc
      exact ⟨ha, hb⟩
    · simp at hu
    · simp at hu
  · intro s' e' hin
    rcases lineRequests_mem s e p _ hin with (⟨u, hu⟩ | ⟨u, hu⟩) | ⟨a, b, h1, h2, h3, hu | hu⟩
    · simp at hu
    · simp at hu
    · injection hu with ha hb
      subst ha
      subst hb
      exact ⟨h1, h2, h3⟩
    · simp at hu
  · intro s' e' hin
    rcases lineRequests_mem s e p _ hin with (⟨u, hu⟩ | ⟨u, hu⟩) | ⟨a, b, h1, h2, h3, hu | hu⟩
    · simp at hu
    · simp at hu
    · simp at hu
    · injection hu with ha hb
      subst ha
      subst hb
      exact ⟨h1, h2, h3⟩
  · intro hty
    rw [lineRequests]
    cases hcase : p.type with
    | heading1 =>
      exact ⟨.updateParagraphStyle s e "HEADING_1", by simp, Or.inl ⟨_, rfl⟩⟩
    | heading2 =>
      exact ⟨.updateParagraphStyle s e "HEADING_2", by simp, Or.inl ⟨_, rfl⟩⟩
    | heading3 =>
      exact ⟨.updateParagraphStyle s e "HEADING_3", by simp, Or.inl ⟨_, rfl⟩⟩
    | bullet =>
      exact ⟨.createParagraphBullets s e "BULLET_DISC_CIRCLE_SQUARE", by simp, Or.inr ⟨_, rfl⟩⟩
    | paragraph => exact absurd hcase hty

/-- Counterexample to claim C7 as stated: for the input `"# "` (a heading
marker with empty content) the translator emits a paragraph-style request
whose range is the empty `[1, 1)`, so `startIndex < endIndex` fails. -/
theorem claim_c7_counterexample :
    markdownToDocsRequests "# " =
      [DocsRequest.insertText 1 ['\n'], DocsRequest.updateParagraphStyle 1 1 "HEADING_1"] ∧
    ¬(∀ r ∈ markdownToDocsRequests "# ",
        ∀ s e t, r = DocsRequest.updateParagraphStyle s e t → s < e) := by
  constructor
  · decide
  · intro hall
    have := hall (DocsRequest.updateParagraphStyle 1 1 "HEADING_1") (by decide) 1 1
      "HEADING_1" rfl
    omega

/-- Amended claim C7: every emitted formatting range lies within
`[1, length(insertText)+1]` with `startIndex ≤ endIndex` (equality is possible
for paragraph-level requests on empty-content lines, text-style ranges are
strictly non-empty), and every span-level bold/italic range stays within its
own line's paragraph-level range `[start, end)`. -/
theorem claim_c7_amended :
    (∀ md r, r ∈ markdownToDocsRequestsL md →
      match r with
      | .insertText i _ => i = 1
      | .updateParagraphStyle s e _ => 1 ≤ s ∧ s ≤ e ∧ e ≤ (fullTextOf md).length + 1
      | .createParagraphBullets s e _ => 1 ≤ s ∧ s ≤ e ∧ e ≤ (fullTextOf md).length + 1
      | .updateTextStyleBold s e => 1 ≤ s ∧ s < e ∧ e ≤ (fullTextOf md).length + 1
      | .updateTextStyleItalic s e => 1 ≤ s ∧ s < e ∧ e ≤ (fullTextOf md).length + 1) ∧
    (∀ md s e p, (s, e, p) ∈ linePositionsOf md →
      ∀ s' e', (DocsRequest.updateTextStyleBold s' e' ∈ lineRequests (s, e, p) ∨
                DocsRequest.updateTextStyleItalic s' e' ∈ lineRequests (s, e, p)) →
        s ≤ s' ∧ s' < e' ∧ e' ≤ e) := by
  constructor
  · intro md r hr
    rw [markdownToDocsRequestsL_eq md] at hr
    rcases List.mem_append.mp hr with hin | hin
    · by_cases hft : fullTextOf md ≠ []
      · rw [if_pos hft] at hin
        simp only [List.mem_singleton] at hin
        subst hin
        rfl
      · rw [if_neg hft] at hin
        exact absurd hin (List.not_mem_nil r)
    · obtain ⟨reqs, hreqs, hrin⟩ := List.mem_flatten.mp hin
      obtain ⟨⟨s, e, p⟩, hpos, rfl⟩ := List.mem_map.mp hreqs
      have hmem := accumulate_mem _ [] s e p hpos
      have hs1 : 1 ≤ s := by
        have := hmem.2.2.1
        simpa using this
      have hee : e = s + (lineText p).length := hmem.2.1
      have heft : e ≤ (fullTextOf md).length := hmem.2.2.2
      rcases lineRequests_mem s e p r hrin with (⟨u, hu⟩ | ⟨u, hu⟩) |
        ⟨a, b, h1, h2, h3, hu | hu⟩ <;> subst hu
      · exact ⟨hs1, by omega, by omega⟩
      · exact ⟨hs1, by omega, by omega⟩
      · exact ⟨by omega, h2, by omega⟩
      · exact ⟨by omega, h2, by omega⟩
  · intro md s e p hpos s' e' hin
    have hmem := accumulate_mem _ [] s e p hpos
    have hee : e = s + (lineText p).length := hmem.2.1
    rcases hin with hin | hin
    · rcases lineRequests_mem s e p _ hin with (⟨u, hu⟩ | ⟨u, hu⟩) |
        ⟨a, b, h1, h2, h3, hu | hu⟩
      · simp at hu
      · simp at hu
      · injection hu with ha hb
        subst ha
        subst hb
        exact ⟨h1, h2, by omega⟩
      · simp at hu
    · rcases lineRequests_mem s e p _ hin with (⟨u, hu⟩ | ⟨u, hu⟩) |
        ⟨a, b, h1, h2, h3, hu | hu⟩
      · simp at hu
      · simp at hu
      · simp at hu
      · injection hu with ha hb
        subst ha
        subst hb
        exact ⟨h1, h2, by omega⟩

theorem italAux_full :
    ∀ (s acc r : List Char), (s ≠ [] ∨ acc ≠ []) → (∀ c ∈ s, c ≠ '*' ∧ dotM c = true) →
      italAux acc (s ++ '*' :: r) = some (acc.reverse ++ s, r) := by
  intro s
  induction s with
  | nil =>
    intro acc r hne h
    have hacc : acc ≠ [] := hne.resolve_left (by simp)
    rw [List.nil_append, italAux, if_pos ⟨hacc, rfl⟩]
    simp
  | cons c s' ih =>
    intro acc r hne h
    have hc := h c (by simp)
    rw [List.cons_append, italAux, if_neg (by simp [hc.1]), if_pos hc.2]
    rw [ih (c :: acc) r (Or.inr (by simp)) (fun d hd => h d (by simp [hd]))]
    simp

theorem tryMatchAt_italic_full {s r : List Char} (hne : s ≠ [])
    (h : ∀ c ∈ s, c ≠ '*' ∧ dotM c = true) :
    tryMatchAt ('*' :: s ++ '*' :: r) = some (s, false, r) := by
  obtain ⟨c, s', rfl⟩ : ∃ c s', s = c :: s' := by
    cases s with
    | nil => exact absurd rfl hne
    | cons c s' => exact ⟨c, s', rfl⟩
  have hc := h c (by simp)
  rw [List.cons_append, tryMatchAt, if_pos rfl]
  have hcond : ¬(((c :: s') ++ '*' :: r).head? = some '*') := by
    simp [hc.1]
  rw [if_neg hcond]
  dsimp only
  rw [italAux_full (c :: s') [] r (Or.inl (by simp)) h]
  simp

theorem scanSegsF_single {cs content : List Char} {isBold : Bool} {fuel : Nat}
    (hm : tryMatchAt cs = some (content, isBold, [])) (hf : cs.length < fuel) :
    scanSegsF fuel [] cs =
      [if isBold then { text := content, bold := true }
       else { text := content, italic := true }] := by
  cases fuel with
  | zero => omega
  | succ f =>
    cases cs with
    | nil => rw [tryMatchAt] at hm; exact absurd hm (by simp)
    | cons c rest =>
      rw [scanSegsF, hm]
      dsimp only
      have hgone : scanSegsF f [] [] = [] := by
        cases f with
        | zero => rfl
        | succ f' => rw [scanSegsF]; simp
      rw [hgone]
      simp

theorem parseInlineFormatting_italic_ws {s : List Char} (hne : s ≠ [])
    (h : ∀ c ∈ s, c ≠ '*' ∧ dotM c = true) :
    parseInlineFormatting ('*' :: s ++ ['*']) = [{ text := s, italic := true }] := by
  rw [parseInlineFormatting]
  have hm : tryMatchAt ('*' :: s ++ '*' :: []) = some (s, false, []) :=
    tryMatchAt_italic_full hne h
  rw [scanSegsF_single hm (by omega)]
  simp

theorem parseLine_segments {line : List Char} {p : ParsedLine} (h : parseLine line = some p) :
    p.segments = parseInlineFormatting p.rawText := by
  by_cases hb : jsTrim line = []
  · rw [parseLine, if_pos hb] at h
    exact absurd h (by simp)
  · rw [parseLine_nonblank hb] at h
    simp only [Option.some.injEq] at h
    rw [← h]

/-- Claim C1: the full scenario `"# Title\n\nHello **world**"`: exactly one
insertText at index 1 with text `"Title\n\nHello world\n"`, one HEADING_1
paragraph-style request over the first line's range `[1, 6)`, one bold
text-style request over the `"world"` sub-range `[14, 19)`, nothing else;
and the parsed lines are Heading1("Title"), a synthetic empty Paragraph, and
a Paragraph with spans [plain "Hello ", bold "world"]. -/
theorem claim_c1_scenario :
    markdownToDocsRequests "# Title\n\nHello **world**" =
      [DocsRequest.insertText 1 "Title\n\nHello world\n".toList,
       DocsRequest.updateParagraphStyle 1 6 "HEADING_1",
       DocsRequest.updateTextStyleBold 14 19] ∧
    parsedLinesOf "# Title\n\nHello **world**" =
      [{ type := .heading1, segments := [{ text := "Title".toList }],
         rawText := "Title".toList },
       { type := .paragraph, segments := [{ text := [] }], rawText := [] },
       { type := .paragraph,
         segments := [{ text := "Hello ".toList }, { text := "world".toList, bold := true }],
         rawText := "Hello **world**".toList }] := by
  constructor
  · decide
  · decide

/-- Claim C9: the translator is a total function of its input (it is defined
by structural recursion with no failure cases), and the empty input yields the
empty request list — the no-op edit script. -/
theorem claim_c9_empty_input : markdownToDocsRequests "" = [] := by decide

/-- Claim C5: the inline parser's bold-before-italic priority and
unterminated-marker behaviour: `"**a***b*"` parses as [bold "a", italic "b"]
with no gap; lone or unclosed markers stay literal plain text; and text with
no `*` at all is a single plain span. -/
theorem claim_c5_inline :
    parseInlineFormatting "**a***b*".toList =
      [{ text := "a".toList, bold := true }, { text := "b".toList, italic := true }] ∧
    parseInlineFormatting "**".toList = [{ text := "**".toList }] ∧
    parseInlineFormatting "*".toList = [{ text := "*".toList }] ∧
    parseInlineFormatting "*abc".toList = [{ text := "*abc".toList }] ∧
    parseInlineFormatting "**abc".toList = [{ text := "**abc".toList }] ∧
    parseInlineFormatting "a**b".toList = [{ text := "a**b".toList }] ∧
    (∀ text : List Char, (∀ c ∈ text, c ≠ '*') →
      parseInlineFormatting text = [{ text := text }]) := by
  refine ⟨by decide, by decide, by decide, by decide, by decide, by decide, ?_⟩
  intro text h
  exact parseInlineFormatting_no_star h

theorem claim_c5_inline_witness :
    parseInlineFormatting "xy".toList = [{ text := "xy".toList }] :=
  claim_c5_inline.2.2.2.2.2.2 "xy".toList (by decide)

/-- Claim C10: no word-boundary condition on emphasis: a pair of single stars
around non-empty content makes an italic span even when the content starts or
ends with whitespace; concretely `"a * b * c"` parses as
[plain "a ", italic " b ", plain " c"]. -/
theorem claim_c10_whitespace_emphasis :
    parseInlineFormatting "a * b * c".toList =
      [{ text := "a ".toList }, { text := " b ".toList, italic := true },
       { text := " c".toList }] ∧
    (∀ s : List Char, s ≠ [] → (∀ c ∈ s, c ≠ '*' ∧ dotM c = true) →
      parseInlineFormatting ('*' :: s ++ ['*']) = [{ text := s, italic := true }]) := by
  refine ⟨by decide, ?_⟩
  intro s hne h
  exact parseInlineFormatting_italic_ws hne h

theorem claim_c10_whitespace_emphasis_witness :
    parseInlineFormatting ('*' :: " b ".toList ++ ['*']) =
      [{ text := " b ".toList, italic := true }] :=
  claim_c10_whitespace_emphasis.2 " b ".toList (by decide) (by decide)

/-- Counterexample to claim C3 as stated: the input `"# a"` has no blank
lines and no emphasis markers, yet the emitted insertText is `"a\n"` (the
heading marker is stripped), not the input with a newline appended
(`"# a\n"`). -/
theorem claim_c3_counterexample :
    (∀ l ∈ splitLines "# a".toList, jsTrim l ≠ []) ∧
    '*' ∉ "# a".toList ∧
    markdownToDocsRequests "# a" =
      [DocsRequest.insertText 1 "a\n".toList,
       DocsRequest.updateParagraphStyle 1 2 "HEADING_1"] ∧
    "a\n".toList ≠ "# a\n".toList := by
  refine ⟨by decide, by decide, by decide, by decide⟩

theorem claim_c3_amended_witness :
    markdownToDocsRequestsL "- one\n- two".toList =
      DocsRequest.insertText 1 (strippedBody "- one\n- two".toList) ::
        ((linePositionsOf "- one\n- two".toList).map lineRequests).flatten ∧
    ∀ r ∈ ((linePositionsOf "- one\n- two".toList).map lineRequests).flatten,
      (∃ s e t, r = DocsRequest.updateParagraphStyle s e t) ∨
      (∃ s e b, r = DocsRequest.createParagraphBullets s e b) :=
  claim_c3_amended "- one\n- two".toList (by decide) (by decide)

/-- Counterexample to claim C4 as stated: for the line `"**a**"` the parsed
line's spans are [bold "a"] while its rawText (content string) is `"**a**"`;
concatenating span texts yields `"a"`, which does not reconstruct the content
including its emphasis marker characters. -/
theorem claim_c4_counterexample :
    parseLine "**a**".toList =
      some { type := .paragraph, segments := [{ text := "a".toList, bold := true }],
             rawText := "**a**".toList } ∧
    ([{ text := "a".toList, bold := true : TextSegment }].map (fun s => s.text)).flatten ≠
      "**a**".toList := by
  refine ⟨by decide, by decide⟩

/-- Amended claim C4: concatenating each span's text with its consumed
emphasis markers restored (`**`…`**` around bold spans, `*`…`*` around italic
spans) reconstructs exactly the line's content string (`rawText`); the bare
concatenation of span texts reconstructs the content exactly when no span is
emphasised. -/
theorem claim_c4_amended (l : List Char) (p : ParsedLine) (h : parseLine l = some p) :
    ((p.segments.map segSource).flatten = p.rawText) ∧
    ((∀ s ∈ p.segments, s.bold = false ∧ s.italic = false) →
      (p.segments.map (fun s => s.text)).flatten = p.rawText) := by
  have hseg := parseLine_segments h
  constructor
  · rw [hseg, parseInlineFormatting_coverage]
  · intro hplain
    have hmap : p.segments.map (fun s => s.text) = p.segments.map segSource := by
      apply List.map_congr_left
      intro s hs
      have hp := hplain s hs
      rw [segSource, if_neg (by simp [hp.1]), if_neg (by simp [hp.2])]
    rw [hmap, hseg, parseInlineFormatting_coverage]

theorem claim_c4_amended_witness :
    (([{ text := "a".toList, bold := true, italic := false : TextSegment }].map
        segSource).flatten = "**a**".toList) :=
  (claim_c4_amended "**a**".toList
    { type := .paragraph,
      segments := [{ text := "a".toList, bold := true, italic := false }],
      rawText := "**a**".toList } (by decide)).1

theorem isDigit_ne {c : Char} (h : c.isDigit = true) :
    c ≠ '#' ∧ c ≠ '-' ∧ c ≠ '*' ∧ isJsWs c = false := by
  refine ⟨fun he => ?_, fun he => ?_, fun he => ?_, ?_⟩
  · subst he; exact absurd h (by decide)
  · subst he; exact absurd h (by decide)
  · subst he; exact absurd h (by decide)
  · cases hw : isJsWs c with
    | false => rfl
    | true =>
      rw [isJsWs] at hw
      simp only [Bool.or_eq_true, decide_eq_true_eq] at hw
      rcases hw with (((((((rfl | rfl) | rfl) | rfl) | rfl) | rfl) | rfl) | rfl) <;>
        exact absurd h (by decide)

/-- Claim C6: classification of non-blank lines is by strict prefix match in
the stated priority order — `"# "` → Heading1 (content after 2 characters),
`"## "` → Heading2 (after 3), `"### "` → Heading3 (after 4),
`[-*]` + whitespace → Bullet, digits + `.` + whitespace → Bullet (numbering
discarded), otherwise Paragraph verbatim; and a bare `"#"`/`"##"` with no
following space is a Paragraph. -/
theorem bool_not_true_of_false {b : Bool} (h : b = false) : ¬(b = true) := by
  intro hc
  rw [h] at hc
  exact Bool.noConfusion hc

theorem claim_c6_classification :
    (∀ l : List Char,
      (("# ".toList).isPrefixOf l = true →
        parseLine l = some { type := .heading1,
                             segments := parseInlineFormatting (l.drop 2),
                             rawText := l.drop 2 }) ∧
      (("## ".toList).isPrefixOf l = true →
        parseLine l = some { type := .heading2,
                             segments := parseInlineFormatting (l.drop 3),
                             rawText := l.drop 3 }) ∧
      (("### ".toList).isPrefixOf l = true →
        parseLine l = some { type := .heading3,
                             segments := parseInlineFormatting (l.drop 4),
                             rawText := l.drop 4 }) ∧
      (∀ content, bulletMarker l = some content →
        parseLine l = some { type := .bullet,
                             segments := parseInlineFormatting content,
                             rawText := content }) ∧
      (∀ content, numberedMarker l = some content →
        parseLine l = some { type := .bullet,
                             segments := parseInlineFormatting content,
                             rawText := content }) ∧
      (jsTrim l ≠ [] →
        ("# ".toList).isPrefixOf l = false →
        ("## ".toList).isPrefixOf l = false →
        ("### ".toList).isPrefixOf l = false →
        bulletMarker l = none →
        numberedMarker l = none →
        parseLine l = some { type := .paragraph,
                             segments := parseInlineFormatting l,
                             rawText := l })) ∧
    parseLine "#".toList =
      some { type := .paragraph, segments := [{ text := "#".toList }],
             rawText := "#".toList } ∧
    parseLine "##".toList =
      some { type := .paragraph, segments := [{ text := "##".toList }],
             rawText := "##".toList } := by
  refine ⟨fun l => ⟨?_, ?_, ?_, ?_, ?_, ?_⟩, by decide, by decide⟩
  · intro h1
    obtain ⟨t, ht⟩ := List.isPrefixOf_iff_prefix.mp h1
    have hl : l = '#' :: ' ' :: t := by rw [← ht]; rfl
    have hne : jsTrim l ≠ [] :=
      jsTrim_ne_nil (show '#' ∈ l by rw [hl]; simp) (by decide)
    rw [parseLine, if_neg hne, if_pos h1]
  · intro h2
    obtain ⟨t, ht⟩ := List.isPrefixOf_iff_prefix.mp h2
    have hl : l = '#' :: '#' :: ' ' :: t := by rw [← ht]; rfl
    have hne : jsTrim l ≠ [] :=
      jsTrim_ne_nil (show '#' ∈ l by rw [hl]; simp) (by decide)
    have h1 : ¬(("# ".toList).isPrefixOf l = true) := by
      rw [hl]; exact bool_not_true_of_false rfl
    rw [parseLine, if_neg hne, if_neg h1, if_pos h2]
  · intro h3
    obtain ⟨t, ht⟩ := List.isPrefixOf_iff_prefix.mp h3
    have hl : l = '#' :: '#' :: '#' :: ' ' :: t := by rw [← ht]; rfl
    have hne : jsTrim l ≠ [] :=
      jsTrim_ne_nil (show '#' ∈ l by rw [hl]; simp) (by decide)
    have h1 : ¬(("# ".toList).isPrefixOf l = true) := by
      rw [hl]; exact bool_not_true_of_false rfl
    have h2 : ¬(("## ".toList).isPrefixOf l = true) := by
      rw [hl]; exact bool_not_true_of_false rfl
    rw [parseLine, if_neg hne, if_neg h1, if_neg h2, if_pos h3]
  · intro content hb
    obtain ⟨c, rest, rfl, hc, -⟩ := bulletMarker_head hb
    have hne : jsTrim (c :: rest) ≠ [] :=
      jsTrim_ne_nil (List.mem_cons_self c rest) (by rcases hc with rfl | rfl <;> decide)
    have h1 : ¬(("# ".toList).isPrefixOf (c :: rest) = true) := by
      rcases hc with rfl | rfl <;> exact bool_not_true_of_false rfl
    have h2 : ¬(("## ".toList).isPrefixOf (c :: rest) = true) := by
      rcases hc with rfl | rfl <;> exact bool_not_true_of_false rfl
    have h3 : ¬(("### ".toList).isPrefixOf (c :: rest) = true) := by
      rcases hc with rfl | rfl <;> exact bool_not_true_of_false rfl
    rw [parseLine, if_neg hne, if_neg h1, if_neg h2, if_neg h3, hb]
  · intro content hn
    obtain ⟨c, rest, rfl, hcd, -⟩ := numberedMarker_head hn
    obtain ⟨hc1, hc2, hc3, hc4⟩ := isDigit_ne hcd
    have hne : jsTrim (c :: rest) ≠ [] :=
      jsTrim_ne_nil (List.mem_cons_self c rest) hc4
    have h1 : ¬(("# ".toList).isPrefixOf (c :: rest) = true) := by
      intro hcontra
      have hp := List.isPrefixOf_iff_prefix.mp hcontra
      rw [show "# ".toList = '#' :: [' '] from rfl, List.cons_prefix_cons] at hp
      exact hc1 hp.1.symm
    have h2 : ¬(("## ".toList).isPrefixOf (c :: rest) = true) := by
      intro hcontra
      have hp := List.isPrefixOf_iff_prefix.mp hcontra
      rw [show "## ".toList = '#' :: ['#', ' '] from rfl, List.cons_prefix_cons] at hp
      exact hc1 hp.1.symm
    have h3 : ¬(("### ".toList).isPrefixOf (c :: rest) = true) := by
      intro hcontra
      have hp := List.isPrefixOf_iff_prefix.mp hcontra
      rw [show "### ".toList = '#' :: ['#', '#', ' '] from rfl, List.cons_prefix_cons] at hp
      exact hc1 hp.1.symm
    have hbm : bulletMarker (c :: rest) = none := by
      rw [bulletMarker, if_neg (by simp [hc2, hc3])]
    rw [parseLine, if_neg hne, if_neg h1, if_neg h2, if_neg h3, hbm, hn]
  · intro hne h1 h2 h3 hb hn
    have h1' : ¬(("# ".toList).isPrefixOf l = true) := bool_not_true_of_false h1
    have h2' : ¬(("## ".toList).isPrefixOf l = true) := bool_not_true_of_false h2
    have h3' : ¬(("### ".toList).isPrefixOf l = true) := bool_not_true_of_false h3
    rw [parseLine, if_neg hne, if_neg h1', if_neg h2', if_neg h3', hb, hn]

theorem claim_c2_ranges_witness :
    (2 : Nat) = 1 + (lineText { type := .heading1,
                                segments := [{ text := "a".toList }],
                                rawText := "a".toList : ParsedLine }).length :=
  (claim_c2_ranges "# a".toList 1 2
    { type := .heading1, segments := [{ text := "a".toList }], rawText := "a".toList }
    (by decide)).1

theorem claim_c6_classification_witness :
    parseLine "# x".toList =
      some { type := .heading1, segments := parseInlineFormatting ("# x".toList.drop 2),
             rawText := "# x".toList.drop 2 } :=
  (claim_c6_classification.1 "# x".toList).1 (by decide)

theorem claim_c7_amended_witness :
    (1 : Nat) ≤ 1 ∧ 1 ≤ 2 ∧ 2 ≤ (fullTextOf "# a".toList).length + 1 :=
  claim_c7_amended.1 "# a".toList (DocsRequest.updateParagraphStyle 1 2 "HEADING_1")
    (by decide)

theorem claim_c8_ordering_witness :
    ∃ fmts, markdownToDocsRequestsL "x".toList =
        DocsRequest.insertText 1 (fullTextOf "x".toList) :: fmts ∧
      fmts = ((linePositionsOf "x".toList).map lineRequests).flatten ∧
      ∀ r ∈ fmts, ∀ i t, r ≠ DocsRequest.insertText i t :=
  (claim_c8_ordering "x".toList).resolve_left (by decide)

end GdriveCli
